import Mathlib

/-!
# Verification of the modp_b64r web-safe base64 codec

A shallow embedding of `src/modp_b64r.h` from the stringencoders repository.
Bytes and characters are modelled as `Nat` (byte values 0..255); buffers are
`List Nat`.  The three size macros and the two C++ convenience wrappers are
translated directly from the header.  The implementations of
`modp_b64r_encode` and `modp_b64r_decode` live in `modp_b64r.c`, which is not
part of the source tree here (the header only declares them), so those two
operations are modelled from the specification, as marked on each definition.
-/

namespace ModpB64r

/-- The 64 data characters of the web-safe alphabet, as byte values, in
forward-table order: `A`-`Z` (65..90), then `a`-`z` (97..122), then
`0`-`9` (48..57), then `-` (45), then `_` (95).
Modelled from the spec: the forward symbol table of `modp_b64r.c` is absent
from the source tree; the spec fixes the alphabet `A-Z a-z 0-9 - _` mapped
from values 0-63 in that exact order. -/
def b64rChars : List Nat :=
  List.range' 65 26 ++ List.range' 97 26 ++ List.range' 48 10 ++ [45, 95]

/-- The padding character `.` (byte value 46). -/
def b64rPad : Nat := 46

/-- Forward table lookup: the character for a 6-bit value. -/
def b64rChar (v : Nat) : Nat := b64rChars.getD v 0

/-- The full 65-symbol output alphabet `{A-Z, a-z, 0-9, -, _, .}` as byte
values (`.` is 46). -/
def b64rAlphabet : List Nat :=
  [45, 46, 95] ++ List.range' 48 10 ++ List.range' 65 26 ++ List.range' 97 26

/-- Reverse table lookup: maps each of the 64 data characters back to its
6-bit value and every other byte (including `.`, whitespace and the
historical `+`, `/`, `=`) to the invalid marker `none`.
Modelled from the spec: the 256-entry reverse table of `modp_b64r.c` is
absent from the source tree; the spec requires the exact inverse of the
forward table on the 64 data characters and an invalid marker elsewhere. -/
def b64rDec (c : Nat) : Option Nat :=
  if 65 ≤ c ∧ c ≤ 90 then some (c - 65)
  else if 97 ≤ c ∧ c ≤ 122 then some (c - 97 + 26)
  else if 48 ≤ c ∧ c ≤ 57 then some (c - 48 + 52)
  else if c = 45 then some 62
  else if c = 95 then some 63
  else none

/-- `modp_b64r_encode_len(A) = ((A + 2) / 3 * 4 + 1)` (header line 100),
as ideal natural-number arithmetic. -/
def modp_b64r_encode_len (A : Nat) : Nat := (A + 2) / 3 * 4 + 1

/-- `modp_b64r_decode_len(A) = (A / 4 * 3 + 2)` (header line 111),
as ideal natural-number arithmetic. -/
def modp_b64r_decode_len (A : Nat) : Nat := A / 4 * 3 + 2

/-- `modp_b64r_encode_strlen(A) = ((A + 2) / 3 * 4)` (header line 136),
as ideal natural-number arithmetic. -/
def modp_b64r_encode_strlen (A : Nat) : Nat := (A + 2) / 3 * 4

/-- `modp_b64r_encode_len` computed in fixed-width `size_t` arithmetic
(width 64): every addition and multiplication reduces modulo `2 ^ 64`. -/
def modp_b64r_encode_len_sizeT (A : Nat) : Nat :=
  ((A + 2) % 2 ^ 64 / 3 * 4 % 2 ^ 64 + 1) % 2 ^ 64

/-- `modp_b64r_decode_len` computed in fixed-width `size_t` arithmetic. -/
def modp_b64r_decode_len_sizeT (A : Nat) : Nat :=
  (A % 2 ^ 64 / 4 * 3 % 2 ^ 64 + 2) % 2 ^ 64

/-- `modp_b64r_encode_strlen` computed in fixed-width `size_t` arithmetic. -/
def modp_b64r_encode_strlen_sizeT (A : Nat) : Nat :=
  (A + 2) % 2 ^ 64 / 3 * 4 % 2 ^ 64

/-- Ceiling division on naturals: `ceilDiv a b = ⌈a / b⌉`. -/
def ceilDiv (a b : Nat) : Nat := (a + b - 1) / b

/-- The text written by `modp_b64r_encode` for a byte sequence.
Modelled from the spec: the body of `modp_b64r_encode` is in `modp_b64r.c`,
absent from the source tree; spec section 4.1 fixes the algorithm.  Input is
consumed in groups of 3 bytes; each 24-bit group is packed big-endian and
split into four 6-bit values mapped through the forward table; a final
2-byte group yields 3 data characters (16 bits plus 2 zero bits) and one
padding character; a final 1-byte group yields 2 data characters (8 bits
plus 4 zero bits) and two padding characters. -/
def modp_b64r_encode : List Nat → List Nat
  | [] => []
  | [a] =>
      [b64rChar (a / 4 % 64), b64rChar (a % 4 * 16), b64rPad, b64rPad]
  | [a, b] =>
      let w := a * 256 + b
      [b64rChar (w / 1024 % 64), b64rChar (w / 16 % 64), b64rChar (w % 16 * 4),
        b64rPad]
  | a :: b :: c :: rest =>
      let w := a * 65536 + b * 256 + c
      b64rChar (w / 262144 % 64) :: b64rChar (w / 4096 % 64) ::
        b64rChar (w / 64 % 64) :: b64rChar (w % 64) :: modp_b64r_encode rest

/-- The value returned by `modp_b64r_encode`.
Modelled from the spec: the body of `modp_b64r_encode` is absent from the
source tree; per spec section 6 the encoder returns the exact produced text
length, excluding any terminator. -/
def modp_b64r_encode_ret (s : List Nat) : Nat := (modp_b64r_encode s).length

/-- The three bytes of one full decoded 24-bit group, from its four 6-bit
values, big-endian. -/
def decodeQuad (v0 v1 v2 v3 : Nat) : List Nat :=
  let w := v0 * 262144 + v1 * 4096 + v2 * 64 + v3
  [w / 65536, w / 256 % 256, w % 256]

/-- Decoding of the final 4-character group.
Modelled from the spec: part of the absent `modp_b64r_decode` body.  Two
trailing padding characters mean the group encoded 1 byte, one trailing
padding character means 2 bytes, no padding means 3 bytes; a padding
character anywhere else in the group makes the reverse-table lookup fail. -/
def decodeLast (c0 c1 c2 c3 : Nat) : Option (List Nat) :=
  if c3 = b64rPad then
    if c2 = b64rPad then
      match b64rDec c0, b64rDec c1 with
      | some v0, some v1 => some [(v0 * 64 + v1) / 16]
      | _, _ => none
    else
      match b64rDec c0, b64rDec c1, b64rDec c2 with
      | some v0, some v1, some v2 =>
          let w := v0 * 4096 + v1 * 64 + v2
          some [w / 1024, w / 4 % 256]
      | _, _, _ => none
  else
    match b64rDec c0, b64rDec c1, b64rDec c2, b64rDec c3 with
    | some v0, some v1, some v2, some v3 => some (decodeQuad v0 v1 v2 v3)
    | _, _, _, _ => none

/-- Group-wise decoding of a text whose length is a multiple of 4.
Modelled from the spec: part of the absent `modp_b64r_decode` body.  Every
non-final group must consist of four data characters; any reverse-table
lookup returning the invalid marker aborts the whole operation. -/
def decodeGroups : List Nat → Option (List Nat)
  | [] => some []
  | [c0, c1, c2, c3] => decodeLast c0 c1 c2 c3
  | c0 :: c1 :: c2 :: c3 :: rest =>
      match b64rDec c0, b64rDec c1, b64rDec c2, b64rDec c3 with
      | some v0, some v1, some v2, some v3 =>
          (decodeGroups rest).map (fun bs => decodeQuad v0 v1 v2 v3 ++ bs)
      | _, _, _, _ => none
  | _ => none

/-- The result of `modp_b64r_decode`: `some` of the decoded bytes on
success, `none` standing for the C failure return `(size_t)-1`.
Modelled from the spec: the body of `modp_b64r_decode` is in `modp_b64r.c`,
absent from the source tree; spec sections 4.2, 7 and 9 fix the algorithm,
and a length not reducible to whole groups of 4 is a decode failure. -/
def modp_b64r_decode (s : List Nat) : Option (List Nat) :=
  if s.length % 4 = 0 then decodeGroups s else none

/-- The C++ wrapper `modp::b64r_encode(s, len)` (header lines 152-163): it
builds a buffer of `modp_b64r_encode_len len` NUL bytes, lets
`modp_b64r_encode` write into it and take its return value `d`, clears the
string when `d` is `(size_t)-1`, and otherwise erases everything from
position `d` on. -/
def b64r_encode_cpp (s : List Nat) : List Nat :=
  let x := List.replicate (modp_b64r_encode_len s.length) 0
  let buf := modp_b64r_encode s ++ x.drop (modp_b64r_encode s).length
  let d := modp_b64r_encode_ret s
  if d = 2 ^ 64 - 1 then [] else buf.take d

/-- The C++ wrapper `modp::b64r_decode(src, len)` (header lines 200-211): it
builds a buffer of `modp_b64r_decode_len len + 1` NUL bytes, lets
`modp_b64r_decode` write into it, clears the string when the return is
`(size_t)-1`, and otherwise erases everything from the returned count on. -/
def b64r_decode_cpp (s : List Nat) : List Nat :=
  let x := List.replicate (modp_b64r_decode_len s.length + 1) 0
  match modp_b64r_decode s with
  | none => []
  | some bs => (bs ++ x.drop bs.length).take bs.length

end ModpB64r

namespace ModpB64r

/-- Induction principle following the 3-byte grouping of the encoder. -/
theorem tripleInd (P : List Nat → Prop) (h0 : P []) (h1 : ∀ a, P [a])
    (h2 : ∀ a b, P [a, b])
    (h3 : ∀ a b c rest, P rest → P (a :: b :: c :: rest)) : ∀ s, P s
  | [] => h0
  | [a] => h1 a
  | [a, b] => h2 a b
  | a :: b :: c :: rest => h3 a b c rest (tripleInd P h0 h1 h2 h3 rest)

/-- Induction principle following the 4-character grouping of the decoder. -/
theorem quadInd (P : List Nat → Prop) (h0 : P []) (h1 : ∀ a, P [a])
    (h2 : ∀ a b, P [a, b]) (h3 : ∀ a b c, P [a, b, c])
    (h4 : ∀ a b c d, P [a, b, c, d])
    (h5 : ∀ a b c d e rest, P (e :: rest) → P (a :: b :: c :: d :: e :: rest)) :
    ∀ s, P s
  | [] => h0
  | [a] => h1 a
  | [a, b] => h2 a b
  | [a, b, c] => h3 a b c
  | [a, b, c, d] => h4 a b c d
  | a :: b :: c :: d :: e :: rest =>
      h5 a b c d e rest (quadInd P h0 h1 h2 h3 h4 h5 (e :: rest))

/-- The encoded text of any byte sequence has length `(n + 2) / 3 * 4`. -/
theorem encode_length (s : List Nat) :
    (modp_b64r_encode s).length = (s.length + 2) / 3 * 4 := by
  induction s using tripleInd with
  | h0 => rfl
  | h1 a => simp [modp_b64r_encode]
  | h2 a b => simp [modp_b64r_encode]
  | h3 a b c rest ih =>
      simp only [modp_b64r_encode, List.length_cons, ih]
      omega

/-- The encoder produces the empty text only for empty input. -/
theorem encode_eq_nil_iff (s : List Nat) : modp_b64r_encode s = [] ↔ s = [] := by
  induction s using tripleInd with
  | h0 => simp [modp_b64r_encode]
  | h1 a => simp [modp_b64r_encode]
  | h2 a b => simp [modp_b64r_encode]
  | h3 a b c rest ih => simp [modp_b64r_encode]

/-- Taking the length of the left part of an append returns that part. -/
theorem take_len_append {α : Type} (l1 l2 : List α) :
    (l1 ++ l2).take l1.length = l1 := by
  induction l1 with
  | nil => rfl
  | cons a t ih => simp [ih]

/-- C2.  The text produced by `modp_b64r_encode` for an input of length `n`
has length `modp_b64r_encode_strlen n = (n + 2) / 3 * 4 = ceil(n/3) * 4`, a
positive multiple of 4 when `n > 0`, and an empty input encodes to the empty
text. -/
theorem claim_c2_encode_length_law (s : List Nat) :
    (modp_b64r_encode s).length = modp_b64r_encode_strlen s.length
  ∧ modp_b64r_encode_strlen s.length = ceilDiv s.length 3 * 4
  ∧ (modp_b64r_encode s).length % 4 = 0
  ∧ (s ≠ [] → 0 < (modp_b64r_encode s).length)
  ∧ modp_b64r_encode [] = [] := by
  have h := encode_length s
  refine ⟨h, ?_, ?_, ?_, rfl⟩
  · unfold modp_b64r_encode_strlen ceilDiv
    omega
  · rw [h]; omega
  · intro hne
    have hp : 0 < s.length := List.length_pos.mpr hne
    rw [h]; omega

/-- Witness for C2 at the one-byte input `[0]`. -/
theorem claim_c2_witness : 0 < (modp_b64r_encode [0]).length :=
  (claim_c2_encode_length_law [0]).2.2.2.1 (by decide)

/-- C3.  `modp_b64r_encode` returns exactly the produced text length
`ceil(n/3) * 4`, not `ceil(n/3) * 4 + 1`. -/
theorem claim_c3_encode_ret (s : List Nat) :
    modp_b64r_encode_ret s = ceilDiv s.length 3 * 4
  ∧ modp_b64r_encode_ret s ≠ ceilDiv s.length 3 * 4 + 1 := by
  have h := encode_length s
  unfold modp_b64r_encode_ret ceilDiv
  omega

/-- Witness for C3 at the one-byte input `[102]`. -/
theorem claim_c3_witness : modp_b64r_encode_ret [102] = ceilDiv 1 3 * 4 :=
  (claim_c3_encode_ret [102]).1

/-- C6.  Under `size_t` arithmetic with no overflow, the three size macros
compute `ceil(A/3)*4 + 1`, `ceil(A/3)*4` and `floor(A/4)*3 + 2` exactly. -/
theorem claim_c6_size_macros (A : Nat) (h1 : A + 2 < 2 ^ 64)
    (h2 : (A + 2) / 3 * 4 + 1 < 2 ^ 64) :
    modp_b64r_encode_len_sizeT A = ceilDiv A 3 * 4 + 1
  ∧ modp_b64r_encode_strlen_sizeT A = ceilDiv A 3 * 4
  ∧ modp_b64r_decode_len_sizeT A = A / 4 * 3 + 2 := by
  unfold modp_b64r_encode_len_sizeT modp_b64r_encode_strlen_sizeT
    modp_b64r_decode_len_sizeT ceilDiv
  omega

/-- Witness for C6 at `A = 10`. -/
theorem claim_c6_witness :
    modp_b64r_encode_len_sizeT 10 = ceilDiv 10 3 * 4 + 1 :=
  (claim_c6_size_macros 10 (by norm_num) (by norm_num)).1

/-- C9.  `modp_b64r_encode_len n = modp_b64r_encode_strlen n + 1`, and a
decode destination sized by `modp_b64r_decode_len` of the encoded length is
`3 * ceil(n/3) + 2 ≥ n + 2`, so it holds the original bytes with at least
two bytes of slack. -/
theorem claim_c9_buffer_sizing (n : Nat) :
    modp_b64r_encode_len n = modp_b64r_encode_strlen n + 1
  ∧ modp_b64r_decode_len (modp_b64r_encode_strlen n) = 3 * ceilDiv n 3 + 2
  ∧ n + 2 ≤ modp_b64r_decode_len (modp_b64r_encode_strlen n) := by
  unfold modp_b64r_encode_len modp_b64r_encode_strlen modp_b64r_decode_len
    ceilDiv
  omega

/-- C7.  The modelled `modp_b64r_encode` never returns the failure sentinel
`(size_t)-1` (its return is a multiple of 4, the sentinel is odd), so the
failure branch of the C++ wrapper `modp::b64r_encode` is never taken and the
wrapper returns exactly the encoded text. -/
theorem claim_c7_encode_no_failure (s : List Nat) :
    modp_b64r_encode_ret s ≠ 2 ^ 64 - 1
  ∧ b64r_encode_cpp s = modp_b64r_encode s := by
  have h := encode_length s
  have hne : modp_b64r_encode_ret s ≠ 2 ^ 64 - 1 := by
    unfold modp_b64r_encode_ret
    omega
  refine ⟨hne, ?_⟩
  unfold b64r_encode_cpp
  rw [if_neg hne]
  exact take_len_append _ _

/-- Witness for C7 at the input `[102, 111, 111]`. -/
theorem claim_c7_witness :
    b64r_encode_cpp [102, 111, 111] = modp_b64r_encode [102, 111, 111] :=
  (claim_c7_encode_no_failure [102, 111, 111]).2

/-- C10.  The C++ wrapper `modp::b64r_decode` returns the empty string
exactly when `modp_b64r_decode` fails or returns count 0; otherwise its
result is the decoded byte sequence itself (so its length equals the
returned count); and decoding the empty input succeeds with count 0, so an
empty wrapper result does not distinguish failure from empty input. -/
theorem claim_c10_decode_wrapper (s : List Nat) :
    (b64r_decode_cpp s = [] ↔
      modp_b64r_decode s = none ∨ modp_b64r_decode s = some [])
  ∧ (∀ bs, modp_b64r_decode s = some bs → b64r_decode_cpp s = bs)
  ∧ modp_b64r_decode [] = some [] := by
  refine ⟨?_, ?_, rfl⟩ <;> unfold b64r_decode_cpp
  · cases h : modp_b64r_decode s with
    | none => simp
    | some bs => simp [take_len_append]
  · intro bs h
    rw [h]
    exact take_len_append _ _

/-- Witness for C10 at the input `AAAA`. -/
theorem claim_c10_witness : b64r_decode_cpp [65, 65, 65, 65] = [0, 0, 0] :=
  (claim_c10_decode_wrapper [65, 65, 65, 65]).2.1 [0, 0, 0] (by decide)

/-- The reverse table inverts the forward table on all 64 six-bit values. -/
theorem b64rDec_b64rChar : ∀ v, v < 64 → b64rDec (b64rChar v) = some v := by
  decide

/-- No forward-table character is the padding character. -/
theorem b64rChar_ne_pad : ∀ v, v < 64 → b64rChar v ≠ b64rPad := by decide

/-- The padding character is not a data character. -/
theorem pad_not_mem_chars : b64rPad ∉ b64rChars := by decide

/-- The reverse table rejects the padding character. -/
theorem b64rDec_pad : b64rDec b64rPad = none := by decide

/-- A character accepted by the reverse table is a data character, hence not
the padding character. -/
theorem b64rDec_some_ne_pad {c v : Nat} (h : b64rDec c = some v) :
    c ≠ b64rPad := by
  intro hc
  rw [hc, b64rDec_pad] at h
  exact Option.noConfusion h

/-- A character accepted by the reverse table lies in the 65-symbol output
alphabet. -/
theorem b64rDec_some_mem {c v : Nat} (h : b64rDec c = some v) :
    c ∈ b64rAlphabet := by
  unfold b64rDec at h
  unfold b64rAlphabet
  simp only [List.mem_append, List.mem_cons, List.mem_range'_1,
    List.not_mem_nil, or_false]
  split_ifs at h with h1 h2 h3 h4 h5 <;> omega

/-- The padding character lies in the 65-symbol output alphabet. -/
theorem pad_mem_alphabet : b64rPad ∈ b64rAlphabet := by decide

/-- Decoding the four characters of an encoded full 3-byte group recovers
the three bytes. -/
theorem decodeQuad_encode (a b c : Nat) (ha : a < 256) (hb : b < 256)
    (hc : c < 256) :
    decodeQuad ((a * 65536 + b * 256 + c) / 262144 % 64)
      ((a * 65536 + b * 256 + c) / 4096 % 64)
      ((a * 65536 + b * 256 + c) / 64 % 64)
      ((a * 65536 + b * 256 + c) % 64) = [a, b, c] := by
  unfold decodeQuad
  simp only [List.cons.injEq, and_true]
  omega

/-- Group-wise decoding inverts the encoder on byte sequences. -/
theorem decodeGroups_encode (s : List Nat) (hs : ∀ b ∈ s, b < 256) :
    decodeGroups (modp_b64r_encode s) = some s := by
  induction s using tripleInd with
  | h0 => rfl
  | h1 a =>
      have ha : a < 256 := hs a (by simp)
      have h0 : a / 4 % 64 < 64 := by omega
      have h1 : a % 4 * 16 < 64 := by omega
      simp only [modp_b64r_encode, decodeGroups, decodeLast, if_pos rfl,
        b64rDec_b64rChar _ h0, b64rDec_b64rChar _ h1]
      simp only [if_true, Option.some.injEq, List.cons.injEq, and_true]
      omega
  | h2 a b =>
      have ha : a < 256 := hs a (by simp)
      have hb : b < 256 := hs b (by simp)
      have h0 : (a * 256 + b) / 1024 % 64 < 64 := by omega
      have h1 : (a * 256 + b) / 16 % 64 < 64 := by omega
      have h2 : (a * 256 + b) % 16 * 4 < 64 := by omega
      simp only [modp_b64r_encode, decodeGroups, decodeLast, if_pos rfl,
        if_neg (b64rChar_ne_pad _ h2), b64rDec_b64rChar _ h0,
        b64rDec_b64rChar _ h1, b64rDec_b64rChar _ h2]
      simp only [if_true, Option.some.injEq, List.cons.injEq, and_true]
      omega
  | h3 a b c rest ih =>
      have ha : a < 256 := hs a (by simp)
      have hb : b < 256 := hs b (by simp)
      have hc : c < 256 := hs c (by simp)
      have hrest : ∀ x ∈ rest, x < 256 := fun x hx => hs x (by simp [hx])
      have h0 : (a * 65536 + b * 256 + c) / 262144 % 64 < 64 := by omega
      have h1 : (a * 65536 + b * 256 + c) / 4096 % 64 < 64 := by omega
      have h2 : (a * 65536 + b * 256 + c) / 64 % 64 < 64 := by omega
      have h3 : (a * 65536 + b * 256 + c) % 64 < 64 := by omega
      rcases hrest3 : modp_b64r_encode rest with _ | ⟨e, erest⟩
      · have : rest = [] := (encode_eq_nil_iff rest).mp hrest3
        subst this
        simp only [modp_b64r_encode, decodeGroups, decodeLast,
          if_neg (b64rChar_ne_pad _ h3), b64rDec_b64rChar _ h0,
          b64rDec_b64rChar _ h1, b64rDec_b64rChar _ h2,
          b64rDec_b64rChar _ h3]
        rw [decodeQuad_encode a b c ha hb hc]
      · simp only [modp_b64r_encode]
        rw [hrest3]
        simp only [decodeGroups, b64rDec_b64rChar _ h0, b64rDec_b64rChar _ h1,
          b64rDec_b64rChar _ h2, b64rDec_b64rChar _ h3]
        rw [← hrest3, ih hrest]
        simp only [Option.map_some']
        rw [decodeQuad_encode a b c ha hb hc]
        rfl

/-- C1.  Round-trip law: decoding the text produced by `modp_b64r_encode`
for any finite byte sequence yields exactly that sequence. -/
theorem claim_c1_roundtrip (s : List Nat) (hs : ∀ b ∈ s, b < 256) :
    modp_b64r_decode (modp_b64r_encode s) = some s := by
  unfold modp_b64r_decode
  have h4 : (modp_b64r_encode s).length % 4 = 0 := by
    rw [encode_length]; omega
  rw [if_pos h4]
  exact decodeGroups_encode s hs

/-- Witness for C1 at the three-byte input `foo`. -/
theorem claim_c1_witness :
    modp_b64r_decode (modp_b64r_encode [102, 111, 111]) =
      some [102, 111, 111] :=
  claim_c1_roundtrip [102, 111, 111] (by decide)

/-- Every forward-table character lies in the 65-symbol output alphabet. -/
theorem b64rChar_mem_alphabet : ∀ v, v < 64 → b64rChar v ∈ b64rAlphabet := by
  decide

/-- Every character of any encoded text lies in the 65-symbol output
alphabet. -/
theorem encode_chars_mem (s : List Nat) :
    ∀ ch ∈ modp_b64r_encode s, ch ∈ b64rAlphabet := by
  induction s using tripleInd with
  | h0 => simp [modp_b64r_encode]
  | h1 a =>
      intro ch hch
      simp only [modp_b64r_encode, List.mem_cons, List.not_mem_nil,
        or_false] at hch
      rcases hch with h | h | h | h <;> subst h
      · exact b64rChar_mem_alphabet _ (by omega)
      · exact b64rChar_mem_alphabet _ (by omega)
      · exact pad_mem_alphabet
      · exact pad_mem_alphabet
  | h2 a b =>
      intro ch hch
      simp only [modp_b64r_encode, List.mem_cons, List.not_mem_nil,
        or_false] at hch
      rcases hch with h | h | h | h <;> subst h
      · exact b64rChar_mem_alphabet _ (by omega)
      · exact b64rChar_mem_alphabet _ (by omega)
      · exact b64rChar_mem_alphabet _ (by omega)
      · exact pad_mem_alphabet
  | h3 a b c rest ih =>
      intro ch hch
      simp only [modp_b64r_encode, List.mem_cons] at hch
      rcases hch with h | h | h | h | h
      · subst h; exact b64rChar_mem_alphabet _ (by omega)
      · subst h; exact b64rChar_mem_alphabet _ (by omega)
      · subst h; exact b64rChar_mem_alphabet _ (by omega)
      · subst h; exact b64rChar_mem_alphabet _ (by omega)
      · exact ih ch h

/-- C8.  Alphabet closure and wire format: every character of an encoded
text lies in the 65-symbol set; the forward table maps 0-25 to `A`-`Z`,
26-51 to `a`-`z`, 52-61 to `0`-`9`, 62 to `-` and 63 to `_`, in that order;
the padding character is `.` (46); and each full 3-byte group is packed
big-endian, the most significant 6 bits giving the first character. -/
theorem claim_c8_wire_format (a b c : Nat) (ha : a < 256) (hb : b < 256)
    (hc : c < 256) :
    (∀ s, ∀ ch ∈ modp_b64r_encode s, ch ∈ b64rAlphabet)
  ∧ (∀ v, v < 26 → b64rChar v = 65 + v)
  ∧ (∀ v, 26 ≤ v → v < 52 → b64rChar v = 97 + (v - 26))
  ∧ (∀ v, 52 ≤ v → v < 62 → b64rChar v = 48 + (v - 52))
  ∧ b64rChar 62 = 45
  ∧ b64rChar 63 = 95
  ∧ b64rPad = 46
  ∧ modp_b64r_encode [a, b, c] =
      [b64rChar (a / 4), b64rChar (a % 4 * 16 + b / 16),
        b64rChar (b % 16 * 4 + c / 64), b64rChar (c % 64)] := by
  refine ⟨encode_chars_mem, by decide, by decide, by decide, by decide,
    by decide, rfl, ?_⟩
  have e0 : (a * 65536 + b * 256 + c) / 262144 % 64 = a / 4 := by omega
  have e1 : (a * 65536 + b * 256 + c) / 4096 % 64 = a % 4 * 16 + b / 16 := by
    omega
  have e2 : (a * 65536 + b * 256 + c) / 64 % 64 = b % 16 * 4 + c / 64 := by
    omega
  have e3 : (a * 65536 + b * 256 + c) % 64 = c % 64 := by omega
  simp only [modp_b64r_encode, e0, e1, e2, e3]

/-- Witness for C8 at the group `[77, 97, 110]` (the bytes of `Man`). -/
theorem claim_c8_witness :
    modp_b64r_encode [77, 97, 110] =
      [b64rChar (77 / 4), b64rChar (77 % 4 * 16 + 97 / 16),
        b64rChar (97 % 16 * 4 + 110 / 64), b64rChar (110 % 64)] :=
  (claim_c8_wire_format 77 97 110 (by decide) (by decide) (by decide)).2.2.2.2.2.2.2

/-- If the final group decodes successfully, all four of its characters lie
in the 65-symbol output alphabet. -/
theorem decodeLast_mem {c0 c1 c2 c3 : Nat} {bs : List Nat}
    (h : decodeLast c0 c1 c2 c3 = some bs) :
    c0 ∈ b64rAlphabet ∧ c1 ∈ b64rAlphabet ∧ c2 ∈ b64rAlphabet ∧
      c3 ∈ b64rAlphabet := by
  unfold decodeLast at h
  split_ifs at h with h3 h2
  · cases hd0 : b64rDec c0 with
    | none => rw [hd0] at h; exact Option.noConfusion h
    | some v0 =>
        cases hd1 : b64rDec c1 with
        | none => rw [hd0, hd1] at h; exact Option.noConfusion h
        | some v1 =>
            subst h3; subst h2
            exact ⟨b64rDec_some_mem hd0, b64rDec_some_mem hd1,
              pad_mem_alphabet, pad_mem_alphabet⟩
  · cases hd0 : b64rDec c0 with
    | none => rw [hd0] at h; exact Option.noConfusion h
    | some v0 =>
        cases hd1 : b64rDec c1 with
        | none => rw [hd0, hd1] at h; exact Option.noConfusion h
        | some v1 =>
            cases hd2 : b64rDec c2 with
            | none => rw [hd0, hd1, hd2] at h; exact Option.noConfusion h
            | some v2 =>
                subst h3
                exact ⟨b64rDec_some_mem hd0, b64rDec_some_mem hd1,
                  b64rDec_some_mem hd2, pad_mem_alphabet⟩
  · cases hd0 : b64rDec c0 with
    | none => rw [hd0] at h; exact Option.noConfusion h
    | some v0 =>
        cases hd1 : b64rDec c1 with
        | none => rw [hd0, hd1] at h; exact Option.noConfusion h
        | some v1 =>
            cases hd2 : b64rDec c2 with
            | none => rw [hd0, hd1, hd2] at h; exact Option.noConfusion h
            | some v2 =>
                cases hd3 : b64rDec c3 with
                | none => rw [hd0, hd1, hd2, hd3] at h
                          exact Option.noConfusion h
                | some v3 =>
                    exact ⟨b64rDec_some_mem hd0, b64rDec_some_mem hd1,
                      b64rDec_some_mem hd2, b64rDec_some_mem hd3⟩

/-- If group-wise decoding succeeds, every character of the input lies in
the 65-symbol output alphabet. -/
theorem decodeGroups_mem (s : List Nat) :
    ∀ bs, decodeGroups s = some bs → ∀ c ∈ s, c ∈ b64rAlphabet := by
  induction s using quadInd with
  | h0 => intro bs _ c hc; exact absurd hc (List.not_mem_nil c)
  | h1 a => intro bs h; exact Option.noConfusion h
  | h2 a b => intro bs h; exact Option.noConfusion h
  | h3 a b c => intro bs h; exact Option.noConfusion h
  | h4 a b c d =>
      intro bs h ch hch
      have hm := decodeLast_mem (h.trans rfl)
      simp only [List.mem_cons, List.not_mem_nil, or_false] at hch
      rcases hch with h1 | h1 | h1 | h1 <;> subst h1
      · exact hm.1
      · exact hm.2.1
      · exact hm.2.2.1
      · exact hm.2.2.2
  | h5 a b c d e rest ih =>
      intro bs h ch hch
      rw [show decodeGroups (a :: b :: c :: d :: e :: rest) =
          (match b64rDec a, b64rDec b, b64rDec c, b64rDec d with
           | some v0, some v1, some v2, some v3 =>
               (decodeGroups (e :: rest)).map
                 (fun bs => decodeQuad v0 v1 v2 v3 ++ bs)
           | _, _, _, _ => none) from rfl] at h
      cases hd0 : b64rDec a with
      | none => rw [hd0] at h; exact Option.noConfusion h
      | some v0 =>
      cases hd1 : b64rDec b with
      | none => rw [hd0, hd1] at h; exact Option.noConfusion h
      | some v1 =>
      cases hd2 : b64rDec c with
      | none => rw [hd0, hd1, hd2] at h; exact Option.noConfusion h
      | some v2 =>
      cases hd3 : b64rDec d with
      | none => rw [hd0, hd1, hd2, hd3] at h; exact Option.noConfusion h
      | some v3 =>
      rw [hd0, hd1, hd2, hd3] at h
      simp only [Option.map_eq_some'] at h
      obtain ⟨bs0, hbs0, _⟩ := h
      simp only [List.mem_cons] at hch
      rcases hch with h1 | h1 | h1 | h1 | h1
      · subst h1; exact b64rDec_some_mem hd0
      · subst h1; exact b64rDec_some_mem hd1
      · subst h1; exact b64rDec_some_mem hd2
      · subst h1; exact b64rDec_some_mem hd3
      · exact ih bs0 hbs0 ch (List.mem_cons.mpr h1)

/-- C4.  Decoding any text containing a byte outside the 65-symbol set
(such as a space or the historical `+`, `/`, `=`) fails with the
decode-failure signal. -/
theorem claim_c4_invalid_reject (s : List Nat) (c : Nat) (hc : c ∈ s)
    (hinv : c ∉ b64rAlphabet) : modp_b64r_decode s = none := by
  unfold modp_b64r_decode
  split_ifs with h4
  · cases hd : decodeGroups s with
    | none => rfl
    | some bs => exact absurd (decodeGroups_mem s bs hd c hc) hinv
  · rfl

/-- Witness for C4 at the input `A+BC`, which contains the historical
base64 character `+` (43). -/
theorem claim_c4_witness : modp_b64r_decode [65, 43, 66, 67] = none :=
  claim_c4_invalid_reject [65, 43, 66, 67] 43 (by decide) (by decide)

/-- An index holding `some` is in bounds. -/
theorem lt_of_getElem?_some {l : List Nat} {i a : Nat} (h : l[i]? = some a) :
    i < l.length := by
  by_contra hc
  rw [List.getElem?_eq_none (by omega)] at h
  exact Option.noConfusion h

/-- In a successfully decoded final group, the first two characters are not
padding, and a padding character in third position forces one in fourth
position. -/
theorem decodeLast_pad_shape {c0 c1 c2 c3 : Nat} {bs : List Nat}
    (h : decodeLast c0 c1 c2 c3 = some bs) :
    c0 ≠ b64rPad ∧ c1 ≠ b64rPad ∧ (c2 = b64rPad → c3 = b64rPad) := by
  unfold decodeLast at h
  split_ifs at h with h3 h2
  · cases hd0 : b64rDec c0 with
    | none => rw [hd0] at h; exact Option.noConfusion h
    | some v0 =>
        cases hd1 : b64rDec c1 with
        | none => rw [hd0, hd1] at h; exact Option.noConfusion h
        | some v1 =>
            exact ⟨b64rDec_some_ne_pad hd0, b64rDec_some_ne_pad hd1,
              fun _ => h3⟩
  · cases hd0 : b64rDec c0 with
    | none => rw [hd0] at h; exact Option.noConfusion h
    | some v0 =>
        cases hd1 : b64rDec c1 with
        | none => rw [hd0, hd1] at h; exact Option.noConfusion h
        | some v1 =>
            cases hd2 : b64rDec c2 with
            | none => rw [hd0, hd1, hd2] at h; exact Option.noConfusion h
            | some v2 =>
                exact ⟨b64rDec_some_ne_pad hd0, b64rDec_some_ne_pad hd1,
                  fun hc => absurd hc h2⟩
  · cases hd0 : b64rDec c0 with
    | none => rw [hd0] at h; exact Option.noConfusion h
    | some v0 =>
        cases hd1 : b64rDec c1 with
        | none => rw [hd0, hd1] at h; exact Option.noConfusion h
        | some v1 =>
            cases hd2 : b64rDec c2 with
            | none => rw [hd0, hd1, hd2] at h; exact Option.noConfusion h
            | some v2 =>
                cases hd3 : b64rDec c3 with
                | none => rw [hd0, hd1, hd2, hd3] at h
                          exact Option.noConfusion h
                | some v3 =>
                    exact ⟨b64rDec_some_ne_pad hd0, b64rDec_some_ne_pad hd1,
                      fun hc => absurd hc (b64rDec_some_ne_pad hd2)⟩

/-- In a successfully decoded text, padding characters occur only in the
last two positions, and one in the second-to-last position forces one in
the last position. -/
theorem decodeGroups_pad_pos (s : List Nat) :
    ∀ bs, decodeGroups s = some bs → ∀ i, s[i]? = some b64rPad →
      s.length ≤ i + 2 ∧ (i + 2 = s.length → s[i + 1]? = some b64rPad) := by
  induction s using quadInd with
  | h0 =>
      intro bs _ i hi
      rw [List.getElem?_eq_none (by simp)] at hi
      exact Option.noConfusion hi
  | h1 a => intro bs h; exact Option.noConfusion h
  | h2 a b => intro bs h; exact Option.noConfusion h
  | h3 a b c => intro bs h; exact Option.noConfusion h
  | h4 a b c d =>
      intro bs h i hi
      have shape := decodeLast_pad_shape (h.trans rfl)
      rcases i with _ | _ | _ | _ | j
      · simp only [List.getElem?_cons_zero, Option.some.injEq] at hi
        exact absurd hi shape.1
      · simp only [List.getElem?_cons_succ, List.getElem?_cons_zero,
          Option.some.injEq] at hi
        exact absurd hi shape.2.1
      · simp only [List.getElem?_cons_succ, List.getElem?_cons_zero,
          Option.some.injEq] at hi
        refine ⟨by simp, fun _ => ?_⟩
        simp only [List.getElem?_cons_succ, List.getElem?_cons_zero,
          Option.some.injEq]
        exact shape.2.2 hi
      · exact ⟨by simp, fun hc => by simp at hc⟩
      · have := lt_of_getElem?_some hi
        simp only [List.length_cons, List.length_nil] at this
        omega
  | h5 a b c d e rest ih =>
      intro bs h i hi
      rw [show decodeGroups (a :: b :: c :: d :: e :: rest) =
          (match b64rDec a, b64rDec b, b64rDec c, b64rDec d with
           | some v0, some v1, some v2, some v3 =>
               (decodeGroups (e :: rest)).map
                 (fun bs => decodeQuad v0 v1 v2 v3 ++ bs)
           | _, _, _, _ => none) from rfl] at h
      cases hd0 : b64rDec a with
      | none => rw [hd0] at h; exact Option.noConfusion h
      | some v0 =>
      cases hd1 : b64rDec b with
      | none => rw [hd0, hd1] at h; exact Option.noConfusion h
      | some v1 =>
      cases hd2 : b64rDec c with
      | none => rw [hd0, hd1, hd2] at h; exact Option.noConfusion h
      | some v2 =>
      cases hd3 : b64rDec d with
      | none => rw [hd0, hd1, hd2, hd3] at h; exact Option.noConfusion h
      | some v3 =>
      rw [hd0, hd1, hd2, hd3] at h
      simp only [Option.map_eq_some'] at h
      obtain ⟨bs0, hbs0, _⟩ := h
      rcases i with _ | _ | _ | _ | j
      · simp only [List.getElem?_cons_zero, Option.some.injEq] at hi
        exact absurd hi (b64rDec_some_ne_pad hd0)
      · simp only [List.getElem?_cons_succ, List.getElem?_cons_zero,
          Option.some.injEq] at hi
        exact absurd hi (b64rDec_some_ne_pad hd1)
      · simp only [List.getElem?_cons_succ, List.getElem?_cons_zero,
          Option.some.injEq] at hi
        exact absurd hi (b64rDec_some_ne_pad hd2)
      · simp only [List.getElem?_cons_succ, List.getElem?_cons_zero,
          Option.some.injEq] at hi
        exact absurd hi (b64rDec_some_ne_pad hd3)
      · simp only [List.getElem?_cons_succ] at hi
        have hrec := ih bs0 hbs0 j hi
        simp only [List.length_cons] at hrec ⊢
        refine ⟨by omega, fun hlen => ?_⟩
        simp only [List.getElem?_cons_succ]
        have h2 := hrec.2 (by omega)
        simp only [List.getElem?_cons_succ] at h2
        exact h2

/-- C5.  Decoding fails whenever the padding character `.` appears in a
non-terminal position (immediately followed by a data character) or the
text ends in more than two padding characters. -/
theorem claim_c5_padding_position (s : List Nat)
    (h : (∃ i c, s[i]? = some b64rPad ∧ s[i + 1]? = some c ∧ c ∈ b64rChars)
       ∨ (∃ u, s = u ++ [b64rPad, b64rPad, b64rPad])) :
    modp_b64r_decode s = none := by
  unfold modp_b64r_decode
  split_ifs with h4
  · cases hd : decodeGroups s with
    | none => rfl
    | some bs =>
        exfalso
        rcases h with ⟨i, c, hi, hic, hc⟩ | ⟨u, hu⟩
        · have pp := decodeGroups_pad_pos s bs hd i hi
          have hlt : i + 1 < s.length := lt_of_getElem?_some hic
          have heq : i + 2 = s.length := by omega
          have hp := pp.2 heq
          rw [hic] at hp
          have hcp : c = b64rPad := Option.some.inj hp
          subst hcp
          exact pad_not_mem_chars hc
        · subst hu
          have hi : (u ++ [b64rPad, b64rPad, b64rPad])[u.length]? =
              some b64rPad := by
            rw [List.getElem?_append_right (Nat.le_refl _)]
            simp
          have pp := decodeGroups_pad_pos _ bs hd u.length hi
          have := pp.1
          simp only [List.length_append, List.length_cons,
            List.length_nil] at this
          omega
  · rfl

/-- Witness for C5 at the input `.A..`, where the padding character in the
first position is immediately followed by the data character `A`. -/
theorem claim_c5_witness : modp_b64r_decode [46, 65, 46, 46] = none :=
  claim_c5_padding_position [46, 65, 46, 46]
    (Or.inl ⟨0, 65, by decide, by decide, by decide⟩)
